import Mathlib

/-!
Verification of the betsandpedestres ledger and settlement engine.

This file gives a shallow embedding of the core of the repository:

* the commit-time database triggers of the migrations
  (`enforce_balanced_tx`, `enforce_nonnegative_user_wallets`,
  `tx_compute_hash_deferred` in `internal/dbinit/migrations/0001_init.sql`
  and `0002_txhash.sql`);
* the payout loop of `finalizeBetPayout`
  (`internal/http/bets_resolve.go`);
* the net effect on the database of the handlers
  `BetWagerCreateHandler.ServeHTTP` (`internal/http/wager.go`),
  `BetResolveHandler.processResolution` (`internal/http/bets_resolve.go`)
  and `UserProfileHandler.handleTransfer` (`internal/http/user_profile.go`).

Amounts are `Int` (the columns are `bigint`; Go `int64` wrap-around is out of
range for the platform's currency amounts and is not modelled).  Go's `/` on
`int64` truncates toward zero, which is `Int.tdiv`.  UUIDs are modelled as
`Nat` identifiers.  SQL result sets that carry no `order by` are modelled as
lists whose order is an arbitrary input of the corresponding function.
-/

/-! ### Payout arithmetic (`finalizeBetPayout`, bets_resolve.go lines 159-218)

The winners branch iterates over the grouped winning rows, gives each
non-last user `(escrowTotal * amount) / winTotal` (Go truncating division)
and overwrites the last user's share with `escrowTotal - distributed`. -/

/-- Share list computed by the payout loop of `finalizeBetPayout`: the
accumulator is the running `distributed` total; see lines 193-200 of
bets_resolve.go. -/
def payoutSharesAux (escrowTotal winTotal : Int) : List Int → Int → List Int
  | [], _ => []
  | [_], distributed => [escrowTotal - distributed]
  | s :: t :: rest, distributed =>
      Int.tdiv (escrowTotal * s) winTotal ::
        payoutSharesAux escrowTotal winTotal (t :: rest)
          (distributed + Int.tdiv (escrowTotal * s) winTotal)

/-- Payout shares for a list of per-user winning stakes, in row order. -/
def payoutShares (escrowTotal winTotal : Int) (stakes : List Int) : List Int :=
  payoutSharesAux escrowTotal winTotal stakes 0

/-- Pairs each grouped winner row `(user, summed stake)` with the share the
loop assigns to it, in row order. -/
def payoutAssign (escrowTotal winTotal : Int) (winners : List (Nat × Int)) :
    List (Nat × Int) :=
  (winners.map Prod.fst).zip (payoutShares escrowTotal winTotal (winners.map Prod.snd))

/-- Fund-holding entities of the `accounts` table: a user's default wallet
(`user_id` set) or a bet's escrow account (`bet_id` set). -/
inductive Acct where
  | wallet (userId : Nat)
  | escrow (betId : Nat)
deriving DecidableEq

/-- Ledger entries inserted by the winners branch of `finalizeBetPayout`:
for each assigned share, two entries `(escrow, -share), (wallet, share)`
are inserted only when `share > 0` (line 208 of bets_resolve.go). -/
def payoutTxEntries (betId : Nat) (escrowTotal winTotal : Int)
    (winners : List (Nat × Int)) : List (Acct × Int) :=
  ((payoutAssign escrowTotal winTotal winners).map (fun p =>
    if 0 < p.2 then [(Acct.escrow betId, -p.2), (Acct.wallet p.1, p.2)] else [])).flatten

/-- Sum of the deltas a list of ledger entries applies to one account. -/
def entriesAcctTotal (es : List (Acct × Int)) (a : Acct) : Int :=
  ((es.filter (fun e => e.1 == a)).map (fun e => e.2)).sum

/-! ### Trigger-level ledger model (migrations 0001 and 0002)

A committed transaction row together with its ledger entries.  Entries are
`(account_id, delta)` pairs.  `commitTx` is the commit path of one database
transaction inserting one `transactions` row plus its `ledger_entries` rows:
the per-insert `check (delta <> 0)` column constraint, then - deferred to the
commit boundary - the constraint triggers `trg_tx_balanced`
(`enforce_balanced_tx`) and `trg_tx_nonneg_user_wallets`
(`enforce_nonnegative_user_wallets`). -/

/-- Transaction row with its entries, as sealed in the database. -/
structure ChainTx where
  reason : String
  betId : Option Nat
  createdAt : Nat
  entries : List (Nat × Int)
deriving DecidableEq

/-- Per-insert column constraint `check (delta <> 0)` on `ledger_entries`. -/
def entriesNonzero (es : List (Nat × Int)) : Bool :=
  es.all (fun e => !(e.2 == 0))

/-- Deferred trigger `enforce_balanced_tx`: the sum of the transaction's
deltas must be zero (0001_init.sql lines 112-127). -/
def entriesBalanced (es : List (Nat × Int)) : Bool :=
  (es.map (fun e => e.2)).sum == 0

/-- All entries of a committed ledger, flattened. -/
def allEntries (ledger : List ChainTx) : List (Nat × Int) :=
  (ledger.map ChainTx.entries).flatten

/-- Sum of the deltas a list of `(account_id, delta)` rows applies to one
account id. -/
def acctTotal (es : List (Nat × Int)) (a : Nat) : Int :=
  ((es.filter (fun e => e.1 == a)).map (fun e => e.2)).sum

/-- Deferred trigger `enforce_nonnegative_user_wallets`
(0002_txhash.sql lines 60-93).  `owner` models the join from accounts to
users: `owner a = some u` when account `a` belongs to user `u` (escrow
accounts have no user and are skipped by the join).  For each affected
user-owned account whose username is not `house`, the trigger sums ALL
ledger entries of that account - at deferred-trigger time that is every
previously committed entry plus this transaction's entries - and rejects
when that total is negative.  Note that the inner join `ledger_entries le2`
carries no `le2.tx_id = NEW.id` restriction: this is a check of the
account's resulting global balance, not of the transaction-local delta. -/
def walletsNonneg (owner : Nat → Option String) (prior txEntries : List (Nat × Int)) : Bool :=
  txEntries.all (fun e =>
    match owner e.1 with
    | none => true
    | some u => u == "house" || decide (0 ≤ acctTotal (prior ++ txEntries) e.1))

/-- Modelled from the spec: the transaction-local non-negativity check the
spec describes ("summing just this transaction's deltas per non-house
account must not be negative").  This is NOT what
`enforce_nonnegative_user_wallets` computes; it is stated here only to be
compared against the code's check. -/
def specLocalNonnegCheck (owner : Nat → Option String) (txEntries : List (Nat × Int)) : Bool :=
  txEntries.all (fun e =>
    match owner e.1 with
    | none => true
    | some u => u == "house" || decide (0 ≤ acctTotal txEntries e.1))

/-- Errors raised on the commit path of a ledger transaction. -/
inductive CommitError where
  | invalidDelta
  | unbalanced
  | negativeWallet
deriving DecidableEq

/-- Commit path for one ledger transaction: per-insert check constraint
first, then the deferred commit-boundary triggers; on success the row set
is appended to the committed ledger. -/
def commitTx (owner : Nat → Option String) (ledger : List ChainTx) (d : ChainTx) :
    Except CommitError (List ChainTx) :=
  if entriesNonzero d.entries then
    if entriesBalanced d.entries then
      if walletsNonneg owner (allEntries ledger) d.entries then
        Except.ok (ledger ++ [d])
      else Except.error CommitError.negativeWallet
    else Except.error CommitError.unbalanced
  else Except.error CommitError.invalidDelta

/-- Ledgers reachable from the empty ledger through successful commits. -/
inductive Reachable (owner : Nat → Option String) : List ChainTx → Prop where
  | nil : Reachable owner []
  | step {L : List ChainTx} {d : ChainTx} {L' : List ChainTx} :
      Reachable owner L → commitTx owner L d = Except.ok L' → Reachable owner L'

/-! ### Hash chain (`tx_compute_hash_deferred`, 0002_txhash.sql lines 21-56)

The deferred trigger canonicalizes the entry list (sorted `account:delta`
pairs), digests `reason || bet_id || created_at || canonical_entries` into a
payload and seals `hash = digest(prev_hash || payload)` where `prev_hash` is
the hash of the transaction immediately preceding in `(created_at, id)`
order.  The digest is modelled as a constructor of an inductive type, i.e.
as an injective function: this abstracts the collision resistance of
SHA-256, which is exactly the assumption under which the tamper-evidence
property of the spec is meaningful. -/

/-- Ordering used to canonicalize an entry list.  The SQL sorts the textual
forms of `account_id` and `delta`; any fixed total order yields the same
canonicalization guarantees, and we use the numeric lexicographic order. -/
def entryLe (a b : Nat × Int) : Prop :=
  a.1 < b.1 ∨ (a.1 = b.1 ∧ a.2 ≤ b.2)

instance : DecidableRel entryLe := fun a b => by
  unfold entryLe; infer_instance

/-- Canonical entry list: the `string_agg(... order by ...)` serialization,
kept as the sorted list of pairs (uuid and integer text contain neither of
the separators, so the serialization is injective on sorted lists). -/
def canonEntries (es : List (Nat × Int)) : List (Nat × Int) :=
  List.insertionSort entryLe es

/-- Digest values: `payloadD` is the inner digest over the transaction
fields, `chainD` the outer digest chaining in the previous hash. -/
inductive HashVal where
  | payloadD (reason : String) (betId : Option Nat) (createdAt : Nat)
      (canon : List (Nat × Int)) : HashVal
  | chainD (prev : Option HashVal) (payload : HashVal) : HashVal

/-- Payload digest of one transaction row. -/
def txPayload (t : ChainTx) : HashVal :=
  HashVal.payloadD t.reason t.betId t.createdAt (canonEntries t.entries)

/-- Sealed hash of one transaction row given the previous hash. -/
def txHash (prev : Option HashVal) (t : ChainTx) : HashVal :=
  HashVal.chainD prev (txPayload t)

/-- Chain of `(prev_hash, hash)` pairs computed over transactions listed in
`(created_at, id)` order, starting from a given previous hash. -/
def chainFrom (prev : Option HashVal) : List ChainTx → List (Option HashVal × HashVal)
  | [] => []
  | t :: ts => (prev, txHash prev t) :: chainFrom (some (txHash prev t)) ts

/-- Chain computed for a full ledger (no predecessor for the first row). -/
def chainHashes (ts : List ChainTx) : List (Option HashVal × HashVal) :=
  chainFrom none ts

/-- Every row's `prev_hash` equals the hash of the immediately preceding
row. -/
def chainLinked : List (Option HashVal × HashVal) → Prop
  | [] => True
  | [_] => True
  | x :: y :: rest => y.1 = some x.2 ∧ chainLinked (y :: rest)

/-! ### Handler-level state model

Net effect on the database of the HTTP handlers.  Each handler runs one
database transaction; an error path returns before `Commit` and the
deferred `Rollback` discards every insert, so the net state transition of a
failed call is the identity.  Notifications, sessions and rendering are
outside the core and not modelled. -/

/-- Status values of the `bets.status` column used by the handlers:
`opened` models the SQL value `'open'`, `closed` models `'closed'`. -/
inductive BetStatus where
  | opened
  | closed
deriving DecidableEq

/-- Row of the `bets` table (the fields the core handlers read or write). -/
structure Bet where
  status : BetStatus
  deadline : Option Int
  resolutionOption : Option Nat
deriving DecidableEq

/-- Row of the `wagers` table. -/
structure WagerRow where
  userId : Nat
  betId : Nat
  optionId : Nat
  amount : Int
  idempotencyKey : String
deriving DecidableEq

/-- Row of the `bet_resolution_votes` table (one live vote per
`(bet_id, user_id)`). -/
structure VoteRow where
  betId : Nat
  userId : Nat
  optionId : Nat
deriving DecidableEq

/-- Committed `transactions` row with its ledger entries, handler view. -/
structure LTx where
  reason : String
  betId : Option Nat
  entries : List (Acct × Int)
deriving DecidableEq

/-- Database state seen by the handlers.  `options` lists
`(option_id, bet_id)` pairs of `bet_options`. -/
structure St where
  bets : List (Nat × Bet)
  options : List (Nat × Nat)
  wagers : List WagerRow
  votes : List VoteRow
  txs : List LTx
deriving DecidableEq

/-- Distinguished `house` user (row with `username = 'house'`); its default
wallet is the house account. -/
def houseUserId : Nat := 0

/-- Lookup of a bet row by id. -/
def getBet (st : St) (betId : Nat) : Option Bet :=
  (st.bets.find? (fun p => p.1 == betId)).map (fun p => p.2)

/-- Join of `bet_options` and `bets` used by the validation queries: the
option belongs to the bet and the bet row exists. -/
def validBetOption (st : St) (optionId betId : Nat) : Bool :=
  st.options.contains (optionId, betId) && (getBet st betId).isSome

/-- Live resolution votes of one bet. -/
def betVotes (st : St) (betId : Nat) : List VoteRow :=
  st.votes.filter (fun v => v.betId == betId)

/-- Delta one committed transaction applies to one account. -/
def txAcctDelta (t : LTx) (a : Acct) : Int :=
  entriesAcctTotal t.entries a

/-- Balance of an account: sum of its ledger entry deltas, per the
`user_balances` view of 0001_init.sql. -/
def acctBalance (st : St) (a : Acct) : Int :=
  (st.txs.map (fun t => txAcctDelta t a)).sum

/-- Balance of a user's default wallet. -/
def userBalance (st : St) (uid : Nat) : Int :=
  acctBalance st (Acct.wallet uid)

/-- Condition `can_wager` of the validation query of wager.go lines 67-79:
bet open, deadline null or strictly in the future, and no resolution vote
for the bet. -/
def canWager (st : St) (now : Int) (betId : Nat) : Bool :=
  match getBet st betId with
  | none => false
  | some b =>
      (b.status == BetStatus.opened) &&
      (match b.deadline with
       | none => true
       | some d => decide (now < d)) &&
      (betVotes st betId).isEmpty

/-- Condition of `ensureBetOpen` in bets_resolve.go lines 283-301: bet open
and deadline null or already passed (`b.deadline <= now()`). -/
def canVote (st : St) (now : Int) (betId : Nat) : Bool :=
  match getBet st betId with
  | none => false
  | some b =>
      (b.status == BetStatus.opened) &&
      (match b.deadline with
       | none => true
       | some d => decide (d ≤ now))

/-- Outcomes of `BetWagerCreateHandler.ServeHTTP` as seen by the caller. -/
inductive WagerOutcome where
  | placed
  | alreadySubmitted
  | badRequest
  | invalidBetOption
  | conflict
  | insufficient
deriving DecidableEq

/-- Net effect of `BetWagerCreateHandler.ServeHTTP` (wager.go lines 19-167).
Validation and the balance check run first; on success one `BET`
transaction moves `amount` from the user's wallet to the bet's escrow and
one wager row is inserted.  When the wager insert collides on the unique
index `uq_wager_user_idemp` over `(user_id, idempotency_key)` the handler
redirects without committing, so the open database transaction - including
the ledger movement already inserted in steps 5 and 6 - is rolled back: the
net transition is the identity and the caller sees success
(`already_submitted`). -/
def placeWager (st : St) (now : Int) (uid betId optionId : Nat) (amount : Int)
    (key : String) : WagerOutcome × St :=
  if amount ≤ 0 then (WagerOutcome.badRequest, st)
  else if key = "" then (WagerOutcome.badRequest, st)
  else if !(validBetOption st optionId betId) then (WagerOutcome.invalidBetOption, st)
  else if !(canWager st now betId) then (WagerOutcome.conflict, st)
  else if userBalance st uid < amount then (WagerOutcome.insufficient, st)
  else if st.wagers.any (fun w => w.userId == uid && w.idempotencyKey == key) then
    (WagerOutcome.alreadySubmitted, st)
  else
    (WagerOutcome.placed,
      { st with
        txs := st.txs ++
          [⟨"BET", some betId, [(Acct.wallet uid, -amount), (Acct.escrow betId, amount)]⟩],
        wagers := st.wagers ++ [⟨uid, betId, optionId, amount, key⟩] })

/-- Upsert of `bet_resolution_votes` (`on conflict (bet_id, user_id) do
update set option_id = ...`): as a set of rows, the previous `(bet, user)`
vote is replaced by the new one. -/
def upsertVote (votes : List VoteRow) (betId uid optionId : Nat) : List VoteRow :=
  (votes.filter (fun v => !(v.betId == betId && v.userId == uid))) ++
    [⟨betId, uid, optionId⟩]

/-- Query of `consensusStatus` (bets_resolve.go lines 328-343): total number
of live votes for the bet, and whether they group into exactly one distinct
option. -/
def consensusStatus (votes : List VoteRow) (betId : Nat) : Nat × Bool :=
  let vs := votes.filter (fun v => v.betId == betId)
  (vs.length, (vs.map (fun v => v.optionId)).dedup.length == 1)

/-- Query of `consensusWinningOption`: the option of an arbitrary live vote
of the bet (`limit 1` with no `order by`); under consensus all live votes
agree so the choice is determined. -/
def consensusWinningOption (votes : List VoteRow) (betId : Nat) : Option Nat :=
  ((votes.filter (fun v => v.betId == betId)).head?).map (fun v => v.optionId)

/-- Update of the `bets` row performed by `finalizeBetPayout`: status
`closed`, `resolution_option_id` set. -/
def closeBet (bets : List (Nat × Bet)) (betId winOpt : Nat) : List (Nat × Bet) :=
  bets.map (fun p =>
    if p.1 == betId then
      (p.1, { p.2 with status := BetStatus.closed, resolutionOption := some winOpt })
    else p)

/-- Grouping `select user_id, sum(amount) ... group by user_id` of the
winning wagers.  The query carries no `order by`; the model lists users in
order of first appearance, one arbitrary but fixed choice. -/
def groupWinners (wagers : List WagerRow) (betId winOpt : Nat) : List (Nat × Int) :=
  let rel := wagers.filter (fun w => w.betId == betId && w.optionId == winOpt)
  ((rel.map (fun w => w.userId)).eraseDups).map (fun u =>
    (u, ((rel.filter (fun w => w.userId == u)).map (fun w => w.amount)).sum))

/-- Successful body of `finalizeBetPayout` (bets_resolve.go lines 95-219):
close the bet with its resolution option, then move the whole escrow total
to the house when the winning option has no wagers, else distribute it
over the grouped winners. -/
def applyBetPayout (st : St) (betId winOpt : Nat) : St :=
  let escrowTotal :=
    ((st.wagers.filter (fun w => w.betId == betId)).map (fun w => w.amount)).sum
  let winTotal :=
    ((st.wagers.filter (fun w => w.betId == betId && w.optionId == winOpt)).map
      (fun w => w.amount)).sum
  let payoutTx : LTx :=
    if winTotal == 0 then
      ⟨"BET", some betId,
        [(Acct.escrow betId, -escrowTotal), (Acct.wallet houseUserId, escrowTotal)]⟩
    else
      ⟨"BET", some betId,
        payoutTxEntries betId escrowTotal winTotal (groupWinners st.wagers betId winOpt)⟩
  { st with bets := closeBet st.bets betId winOpt, txs := st.txs ++ [payoutTx] }

/-- Net effect of `finalizeBetPayout`.  The escrow account is created
lazily by the first admitted wager (`ensureBetEscrowAccount`, committed in
the same database transaction as the wager row), so for a bet with no
wagers the lookup `select id from accounts where bet_id = ...` at line 107
of bets_resolve.go fails with `pgx.ErrNoRows` (and even with an escrow row
the no-winner fallback would insert two zero deltas, violating the
`check (delta <> 0)` column constraint): `finalizeBetPayout` returns the
error and the enclosing transaction rolls back, modelled as `none`.
Otherwise the payout of `applyBetPayout` applies. -/
def finalizeBetPayout (st : St) (betId winOpt : Nat) : Option St :=
  if (st.wagers.filter (fun w => w.betId == betId)).isEmpty then none
  else some (applyBetPayout st betId winOpt)

/-- Outcomes of `BetResolveHandler.processResolution` as seen by the
caller; `dbError` is the internal-error response of the handler when
`finalizeBetPayout` fails and the whole unit of work - the vote
included - rolls back. -/
inductive ResolveOutcome where
  | voted
  | finalized
  | invalidBetOption
  | betNotOpen
  | dbError
deriving DecidableEq

/-- Net effect of `BetResolveHandler.processResolution` (bets_resolve.go
lines 237-281): validate via `ensureBetOpen`, upsert the moderator's vote,
then finalize exactly when the live vote count reaches the quorum and all
live votes agree on one option; a `finalizeBetPayout` failure aborts the
whole transaction, discarding the vote as well. -/
def processResolution (quorum : Nat) (now : Int) (st : St) (uid betId optionId : Nat) :
    ResolveOutcome × St :=
  if !(validBetOption st optionId betId) then (ResolveOutcome.invalidBetOption, st)
  else if !(canVote st now betId) then (ResolveOutcome.betNotOpen, st)
  else
    let votes' := upsertVote st.votes betId uid optionId
    let st1 : St := { st with votes := votes' }
    let cs := consensusStatus votes' betId
    if decide (quorum ≤ cs.1) && cs.2 then
      match consensusWinningOption votes' betId with
      | some winOpt =>
          match finalizeBetPayout st1 betId winOpt with
          | some st2 => (ResolveOutcome.finalized, st2)
          | none => (ResolveOutcome.dbError, st)
      | none => (ResolveOutcome.voted, st1)
    else (ResolveOutcome.voted, st1)

/-- Outcomes of `UserProfileHandler.handleTransfer` as seen by the caller. -/
inductive TransferOutcome where
  | sent
  | invalidAmount
  | selfTransfer
  | notEnough
deriving DecidableEq

/-- Net effect of `UserProfileHandler.handleTransfer` (user_profile.go lines
459-565), with the recipient already resolved to a user id.  The self-send
check at lines 499-502 runs before `h.DB.Begin`, so a self transfer is
rejected before any database transaction is opened. -/
def handleTransfer (st : St) (uid recipient : Nat) (amount : Int) : TransferOutcome × St :=
  if amount ≤ 0 then (TransferOutcome.invalidAmount, st)
  else if recipient == uid then (TransferOutcome.selfTransfer, st)
  else if userBalance st uid < amount then (TransferOutcome.notEnough, st)
  else
    (TransferOutcome.sent,
      { st with txs := st.txs ++
          [⟨"TRANSFER", none, [(Acct.wallet uid, -amount), (Acct.wallet recipient, amount)]⟩] })

/-! ### Lemmas about the payout loop -/

theorem payoutSharesAux_cons (E W s t : Int) (rest : List Int) (d : Int) :
    payoutSharesAux E W (s :: t :: rest) d =
      Int.tdiv (E * s) W ::
        payoutSharesAux E W (t :: rest) (d + Int.tdiv (E * s) W) := rfl

theorem payoutSharesAux_shape (E W : Int) :
    ∀ (l : List Int), l ≠ [] → ∀ d : Int,
      payoutSharesAux E W l d =
        (l.dropLast.map (fun s => Int.tdiv (E * s) W)) ++
          [E - d - ((l.dropLast.map (fun s => Int.tdiv (E * s) W)).sum)] := by
  intro l
  induction l with
  | nil => intro h; exact absurd rfl h
  | cons s rest ih =>
    intro _ d
    cases rest with
    | nil => simp [payoutSharesAux]
    | cons t r2 =>
      have h2 := ih (by simp) (d + Int.tdiv (E * s) W)
      rw [payoutSharesAux_cons, h2]
      have hd : (s :: t :: r2).dropLast = s :: (t :: r2).dropLast := rfl
      rw [hd, List.map_cons, List.cons_append, List.sum_cons]
      have harith : E - (d + Int.tdiv (E * s) W) -
          ((t :: r2).dropLast.map (fun s => Int.tdiv (E * s) W)).sum =
          E - d - (Int.tdiv (E * s) W +
            ((t :: r2).dropLast.map (fun s => Int.tdiv (E * s) W)).sum) := by ring
      rw [harith]

theorem payoutSharesAux_sum (E W : Int) (l : List Int) (hne : l ≠ []) (d : Int) :
    (payoutSharesAux E W l d).sum = E - d := by
  rw [payoutSharesAux_shape E W l hne d]
  rw [List.sum_append, List.sum_cons, List.sum_nil]
  omega

theorem payoutSharesAux_length (E W : Int) :
    ∀ (l : List Int) (d : Int), (payoutSharesAux E W l d).length = l.length := by
  intro l
  induction l with
  | nil => intro d; rfl
  | cons s rest ih =>
    intro d
    cases rest with
    | nil => rfl
    | cons t r2 => rw [payoutSharesAux_cons]; simp [ih]

theorem payoutShares_length (E W : Int) (stakes : List Int) :
    (payoutShares E W stakes).length = stakes.length :=
  payoutSharesAux_length E W stakes 0

theorem payoutSharesAux_nonneg (E W : Int) (hW : 0 < W) (hE : 0 ≤ E) :
    ∀ (l : List Int), (∀ s ∈ l, 0 < s) → ∀ d : Int,
      d * W + E * l.sum ≤ E * W →
      ∀ x ∈ payoutSharesAux E W l d, 0 ≤ x := by
  intro l
  induction l with
  | nil => intro _ d _ x hx; simp [payoutSharesAux] at hx
  | cons s rest ih =>
    intro hpos d hinv x hx
    have hs : 0 < s := hpos s (by simp)
    have hEs : 0 ≤ E * s := mul_nonneg hE hs.le
    cases rest with
    | nil =>
      simp only [payoutSharesAux, List.mem_singleton] at hx
      subst hx
      have hsum : (s :: ([] : List Int)).sum = s := by simp
      rw [hsum] at hinv
      have hdW : d * W ≤ E * W := by nlinarith
      have hdE : d ≤ E := Int.le_of_mul_le_mul_right hdW hW
      omega
    | cons t r2 =>
      rw [payoutSharesAux_cons] at hx
      rcases List.mem_cons.mp hx with hx | hx
      · subst hx
        exact Int.tdiv_nonneg hEs hW.le
      · have hq : Int.tdiv (E * s) W * W ≤ E * s := by
          rw [Int.tdiv_eq_ediv hEs hW.le]
          exact Int.ediv_mul_le (E * s) (by omega)
        refine ih (fun y hy => hpos y (by simp [hy])) (d + Int.tdiv (E * s) W) ?_ x hx
        have hsum : (s :: t :: r2).sum = s + (t :: r2).sum := by simp
        rw [hsum] at hinv
        have hdist : E * (s + (t :: r2).sum) = E * s + E * (t :: r2).sum := by ring
        rw [hdist] at hinv
        have hadd : (d + Int.tdiv (E * s) W) * W = d * W + Int.tdiv (E * s) W * W := by ring
        omega

theorem payoutShares_nonneg (E W : Int) (stakes : List Int) (hne : stakes ≠ [])
    (hpos : ∀ s ∈ stakes, 0 < s) (hW : W = stakes.sum) (hEW : W ≤ E) :
    ∀ x ∈ payoutShares E W stakes, 0 ≤ x := by
  have hWpos : 0 < W := hW ▸ List.sum_pos stakes hpos hne
  have hEnn : 0 ≤ E := le_trans hWpos.le hEW
  refine payoutSharesAux_nonneg E W hWpos hEnn stakes hpos 0 ?_
  rw [hW]
  nlinarith [List.sum_pos stakes hpos hne]

theorem payoutAssign_map_snd (E W : Int) (winners : List (Nat × Int)) :
    (payoutAssign E W winners).map Prod.snd = payoutShares E W (winners.map Prod.snd) := by
  unfold payoutAssign
  apply List.map_snd_zip
  rw [payoutShares_length]
  simp

theorem payoutAssign_map_fst (E W : Int) (winners : List (Nat × Int)) :
    (payoutAssign E W winners).map Prod.fst = winners.map Prod.fst := by
  unfold payoutAssign
  apply List.map_fst_zip
  rw [payoutShares_length]
  simp

theorem payoutTxEntries_escrow_outflow (betId : Nat) (E W : Int)
    (winners : List (Nat × Int))
    (hnn : ∀ p ∈ payoutAssign E W winners, 0 ≤ p.2) :
    entriesAcctTotal (payoutTxEntries betId E W winners) (Acct.escrow betId) =
      -(((payoutAssign E W winners).map Prod.snd).sum) := by
  unfold payoutTxEntries
  generalize payoutAssign E W winners = assigned at hnn ⊢
  induction assigned with
  | nil => simp [entriesAcctTotal]
  | cons p rest ih =>
    have hp : 0 ≤ p.2 := hnn p (by simp)
    have hrest := ih (fun q hq => hnn q (by simp [hq]))
    simp only [List.map_cons, List.flatten_cons, List.map_cons, List.sum_cons]
    unfold entriesAcctTotal at hrest ⊢
    rw [List.filter_append, List.map_append, List.sum_append, hrest]
    by_cases hpos : 0 < p.2
    · rw [if_pos hpos]
      have hfw : (Acct.wallet p.1 == Acct.escrow betId) = false := by
        rw [beq_eq_false_iff_ne]
        intro h
        exact Acct.noConfusion h
      have hfilter : (([(Acct.escrow betId, -p.2), (Acct.wallet p.1, p.2)] :
          List (Acct × Int)).filter (fun e => e.1 == Acct.escrow betId)) =
          [(Acct.escrow betId, -p.2)] := by
        simp [List.filter, hfw]
      rw [hfilter]
      simp only [List.map_cons, List.map_nil, List.sum_cons, List.sum_nil]
      omega
    · rw [if_neg hpos]
      have hz : p.2 = 0 := le_antisymm (by omega) hp
      simp [hz]

/-- C1: for a resolved bet whose winning option has at least one wager, the
payout loop of `finalizeBetPayout` gives every winning user but the last
`floor(escrowTotal * stake / winTotal)` (Go truncating division, which on
these non-negative operands is the mathematical floor, `Int.fdiv`), gives
the last user `escrowTotal` minus the sum of the previous shares, so the
shares sum to exactly `escrowTotal`; and the inserted ledger entries move
exactly `escrowTotal` out of the escrow account, for any distribution of
winning stakes. -/
theorem payout_conservation (E W : Int) (stakes : List Int) (hne : stakes ≠ [])
    (hpos : ∀ s ∈ stakes, 0 < s) (hW : W = stakes.sum) (hEW : W ≤ E) :
    payoutShares E W stakes =
      (stakes.dropLast.map (fun s => Int.tdiv (E * s) W)) ++
        [E - ((stakes.dropLast.map (fun s => Int.tdiv (E * s) W)).sum)]
    ∧ (payoutShares E W stakes).sum = E
    ∧ (∀ s ∈ stakes, Int.tdiv (E * s) W = Int.fdiv (E * s) W)
    ∧ (∀ (betId : Nat) (winners : List (Nat × Int)), winners.map Prod.snd = stakes →
        entriesAcctTotal (payoutTxEntries betId E W winners) (Acct.escrow betId) = -E) := by
  have hWpos : 0 < W := hW ▸ List.sum_pos stakes hpos hne
  have hEnn : 0 ≤ E := le_trans hWpos.le hEW
  refine ⟨?_, ?_, ?_, ?_⟩
  · have h := payoutSharesAux_shape E W stakes hne 0
    unfold payoutShares
    rw [h]
    norm_num
  · unfold payoutShares
    rw [payoutSharesAux_sum E W stakes hne 0]
    omega
  · intro s hs
    have hEs : 0 ≤ E * s := mul_nonneg hEnn (hpos s hs).le
    rw [Int.tdiv_eq_ediv hEs hWpos.le, Int.fdiv_eq_ediv (E * s) hWpos.le]
  · intro betId winners hmap
    have hnn : ∀ p ∈ payoutAssign E W winners, 0 ≤ p.2 := by
      intro p hp
      have hmem : p.2 ∈ (payoutAssign E W winners).map Prod.snd :=
        List.mem_map_of_mem Prod.snd hp
      rw [payoutAssign_map_snd, hmap] at hmem
      exact payoutShares_nonneg E W stakes hne hpos hW hEW p.2 hmem
    rw [payoutTxEntries_escrow_outflow betId E W winners hnn,
      payoutAssign_map_snd, hmap]
    unfold payoutShares
    rw [payoutSharesAux_sum E W stakes hne 0]
    omega

/-- Witness for `payout_conservation`: escrow 10, winning stakes 1 and 2
(win total 3); the shares are 3 and 7 and sum to exactly 10. -/
theorem payout_conservation_witness :
    payoutShares 10 3 [1, 2] = [3, 7] ∧ (payoutShares 10 3 [1, 2]).sum = 10 :=
  ⟨by decide,
    (payout_conservation 10 3 [1, 2] (by decide) (by decide) (by decide) (by decide)).2.1⟩

/-- Per-user view of one run of the payout loop: the share paid to a given
user, if that user appears among the grouped winner rows. -/
def userShare (assigned : List (Nat × Int)) (u : Nat) : Option Int :=
  (assigned.find? (fun p => p.1 == u)).map (fun p => p.2)

/-- C8 counterexample: the grouped winner rows of the payout query carry no
`order by`, and the share a user receives depends on the row order.  With
escrow 10 and winning stakes user 1 staking 1 and user 2 staking 2, the two
row orders are permutations of the same grouped set, yet user 1 receives 3
in one order and 4 in the other: the claimed fixed deterministic order does
not exist in the code. -/
theorem payout_order_counterexample :
    ([((1 : Nat), (1 : Int)), (2, 2)]).Perm [(2, 2), (1, 1)]
    ∧ userShare (payoutAssign 10 3 [(1, 1), (2, 2)]) 1 = some 3
    ∧ userShare (payoutAssign 10 3 [(2, 2), (1, 1)]) 1 = some 4 := by
  refine ⟨?_, by decide, by decide⟩
  decide

/-- C8 amended: the winners are processed in whatever order the grouped
rows are produced; the per-user shares - in particular which user absorbs
the truncation remainder - depend on that order, but every order assigns a
share to exactly the users of the rows (in row order) and distributes a
total of exactly `escrowTotal`. -/
theorem payout_total_order_invariant (E W : Int) (winners : List (Nat × Int))
    (hne : winners ≠ []) :
    ((payoutAssign E W winners).map Prod.snd).sum = E
    ∧ (payoutAssign E W winners).map Prod.fst = winners.map Prod.fst := by
  constructor
  · rw [payoutAssign_map_snd]
    unfold payoutShares
    rw [payoutSharesAux_sum E W (winners.map Prod.snd) (by simpa using hne) 0]
    omega
  · exact payoutAssign_map_fst E W winners

/-- Witness for `payout_total_order_invariant`: both row orders of the C8
counterexample distribute exactly 10. -/
theorem payout_total_order_invariant_witness :
    ((payoutAssign 10 3 [((1 : Nat), (1 : Int)), (2, 2)]).map Prod.snd).sum = 10
    ∧ ((payoutAssign 10 3 [((2 : Nat), (2 : Int)), (1, 1)]).map Prod.snd).sum = 10 :=
  ⟨(payout_total_order_invariant 10 3 [(1, 1), (2, 2)] (by decide)).1,
    (payout_total_order_invariant 10 3 [(2, 2), (1, 1)] (by decide)).1⟩

/-! ### Zero-sum and wallet-guard theorems -/

/-- C2: every transaction of a ledger reachable through successful commits
has entries summing to exactly zero, and a transaction whose entries all
pass the per-insert `check (delta <> 0)` but do not sum to zero is rejected
by the deferred `enforce_balanced_tx` trigger at the commit boundary. -/
theorem committed_tx_zero_sum :
    (∀ (owner : Nat → Option String) (L : List ChainTx), Reachable owner L →
      ∀ t ∈ L, (t.entries.map (fun e => e.2)).sum = 0)
    ∧ (∀ (owner : Nat → Option String) (L : List ChainTx) (d : ChainTx),
        entriesNonzero d.entries = true → (d.entries.map (fun e => e.2)).sum ≠ 0 →
        commitTx owner L d = Except.error CommitError.unbalanced) := by
  constructor
  · intro owner L hL
    induction hL with
    | nil => intro t ht; simp at ht
    | step hre hcommit ih =>
      rename_i L d L'
      intro t ht
      unfold commitTx at hcommit
      by_cases h1 : entriesNonzero d.entries
      · rw [if_pos h1] at hcommit
        by_cases h2 : entriesBalanced d.entries
        · rw [if_pos h2] at hcommit
          by_cases h3 : walletsNonneg owner (allEntries L) d.entries
          · rw [if_pos h3] at hcommit
            have hL' : L' = L ++ [d] := by
              cases hcommit
              rfl
            subst hL'
            rcases List.mem_append.mp ht with ht | ht
            · exact ih t ht
            · have htd : t = d := by simpa using ht
              subst htd
              have := of_decide_eq_true (by simpa [entriesBalanced] using h2)
              simpa using this
          · rw [if_neg h3] at hcommit; cases hcommit
        · rw [if_neg h2] at hcommit; cases hcommit
      · rw [if_neg h1] at hcommit; cases hcommit
  · intro owner L d h1 h2
    unfold commitTx
    rw [if_pos h1]
    have hbal : entriesBalanced d.entries = false := by
      unfold entriesBalanced
      simpa using h2
    rw [hbal]
    simp

/-- Concrete ledger for the zero-sum witness: account 1 is a user wallet,
account 2 the house wallet. -/
def zsOwner : Nat → Option String :=
  fun a => if a = 1 then some "alice" else if a = 2 then some "house" else none

/-- Balanced gift transaction: house funds account 1 with 10. -/
def zsGood : ChainTx := ⟨"GIFT", none, 0, [(2, -10), (1, 10)]⟩

/-- Unbalanced transaction with individually valid (non-zero) deltas. -/
def zsBad : ChainTx := ⟨"GIFT", none, 1, [(2, -10), (1, 11)]⟩

/-- Witness for `committed_tx_zero_sum`: the committed gift sums to zero,
and the unbalanced draft passes the per-insert check yet is rejected as
unbalanced at commit. -/
theorem committed_tx_zero_sum_witness :
    (zsGood.entries.map (fun e => e.2)).sum = 0
    ∧ commitTx zsOwner [] zsBad = Except.error CommitError.unbalanced :=
  ⟨committed_tx_zero_sum.1 zsOwner [zsGood]
      (Reachable.step Reachable.nil (show commitTx zsOwner [] zsGood = _ from rfl))
      zsGood (by simp),
    committed_tx_zero_sum.2 zsOwner [] zsBad (by decide) (by decide)⟩

/-- Prior ledger for the C3 counterexample: the house gifts 10 to the
wallet of user alice (account 1). -/
def nnPrior : List ChainTx := [⟨"GIFT", none, 0, [(2, -10), (1, 10)]⟩]

/-- Transaction debiting alice by 5: its transaction-local sum on account 1
is negative, but the resulting balance of account 1 is 5. -/
def nnDebit : ChainTx := ⟨"BET", none, 1, [(1, -5), (2, 5)]⟩

/-- C3 counterexample: the claim says a transaction is rejected exactly
when some non-house account's transaction-local delta sum is negative.
`nnDebit` has a negative transaction-local sum on alice's account (the
spec-modelled check fails), yet `enforce_nonnegative_user_wallets` accepts
the commit, because the trigger's inner join has no `tx_id` restriction and
therefore sums the account's whole resulting balance (10 - 5 = 5 >= 0). -/
theorem nonneg_guard_counterexample :
    specLocalNonnegCheck zsOwner nnDebit.entries = false
    ∧ commitTx zsOwner nnPrior nnDebit = Except.ok (nnPrior ++ [nnDebit]) :=
  ⟨by decide, rfl⟩

/-- C3 amended: the guard of `enforce_nonnegative_user_wallets` is a global
resulting-balance check, not a transaction-local one: given entries that
pass the per-insert check and the zero-sum trigger, the commit is rejected
with a negative-wallet error if and only if some account touched by the
transaction is owned by a non-house user and its total balance over all
committed entries plus this transaction's entries is negative.  Escrow
accounts (no owning user) and the house account are exempt. -/
theorem nonneg_guard_is_global (owner : Nat → Option String) (L : List ChainTx)
    (d : ChainTx) (h1 : entriesNonzero d.entries = true)
    (h2 : entriesBalanced d.entries = true) :
    commitTx owner L d = Except.error CommitError.negativeWallet
    ↔ ∃ e ∈ d.entries, ∃ u, owner e.1 = some u ∧ u ≠ "house"
        ∧ acctTotal (allEntries L ++ d.entries) e.1 < 0 := by
  unfold commitTx
  rw [if_pos h1, if_pos h2]
  constructor
  · intro hc
    by_cases h3 : walletsNonneg owner (allEntries L) d.entries
    · rw [if_pos h3] at hc; cases hc
    · have hfalse : walletsNonneg owner (allEntries L) d.entries = false := by
        simpa using h3
      unfold walletsNonneg at hfalse
      rcases List.all_eq_false.mp hfalse with ⟨e, he, hne⟩
      refine ⟨e, he, ?_⟩
      rcases hco : owner e.1 with _ | u
      · rw [hco] at hne; simp at hne
      · refine ⟨u, rfl, ?_⟩
        rw [hco] at hne
        simp only [Bool.not_eq_true, Bool.or_eq_false_iff] at hne
        obtain ⟨hu, hbal⟩ := hne
        refine ⟨by simpa using hu, ?_⟩
        have := of_decide_eq_false hbal
        omega
  · intro hex
    have hfalse : walletsNonneg owner (allEntries L) d.entries = false := by
      rcases hex with ⟨e, he, u, hu, hune, hneg⟩
      apply List.all_eq_false.mpr
      refine ⟨e, he, ?_⟩
      rw [hu]
      simp only [Bool.not_eq_true, Bool.or_eq_false_iff]
      exact ⟨by simpa using hune, decide_eq_false (by omega)⟩
    rw [hfalse]
    simp

/-- Witness for `nonneg_guard_is_global`: with no prior funds, debiting
alice's wallet is rejected with a negative-wallet error. -/
theorem nonneg_guard_is_global_witness :
    commitTx zsOwner [] nnDebit = Except.error CommitError.negativeWallet :=
  (nonneg_guard_is_global zsOwner [] nnDebit (by decide) (by decide)).mpr
    ⟨(1, -5), by decide, "alice", rfl, by decide, by decide⟩

/-! ### Hash chain theorems -/

theorem canonEntries_replace_ne (l₁ l₂ : List (Nat × Int)) (e f : Nat × Int)
    (h : e ≠ f) :
    canonEntries (l₁ ++ e :: l₂) ≠ canonEntries (l₁ ++ f :: l₂) := by
  intro hEq
  have p1 := List.perm_insertionSort entryLe (l₁ ++ e :: l₂)
  have p2 := List.perm_insertionSort entryLe (l₁ ++ f :: l₂)
  unfold canonEntries at hEq
  rw [← hEq] at p2
  have hp : (l₁ ++ e :: l₂).Perm (l₁ ++ f :: l₂) := p1.symm.trans p2
  have hp2 : (e :: l₂).Perm (f :: l₂) := (List.perm_append_left_iff l₁).mp hp
  have hm : ((e :: l₂ : List (Nat × Int)) : Multiset (Nat × Int)) = ↑(f :: l₂) :=
    Multiset.coe_eq_coe.mpr hp2
  have hcount := congrArg (fun m => Multiset.count e m) hm
  simp only [← Multiset.cons_coe, Multiset.count_cons_self,
    Multiset.count_cons_of_ne h] at hcount
  omega

theorem chainFrom_length (ts : List ChainTx) :
    ∀ prev : Option HashVal, (chainFrom prev ts).length = ts.length := by
  induction ts with
  | nil => intro prev; rfl
  | cons t ts ih => intro prev; simp [chainFrom, ih]

theorem chainFrom_linked (ts : List ChainTx) :
    ∀ prev : Option HashVal, chainLinked (chainFrom prev ts) := by
  induction ts with
  | nil => intro prev; trivial
  | cons t ts ih =>
    intro prev
    cases ts with
    | nil => trivial
    | cons u ts2 => exact ⟨rfl, ih (some (txHash prev t))⟩

theorem chainFrom_get_ne (ts : List ChainTx) :
    ∀ (p q : Option HashVal), p ≠ q →
      ∀ (j : Nat) (hj : j < (chainFrom p ts).length)
        (hj2 : j < (chainFrom q ts).length),
        ((chainFrom p ts).get ⟨j, hj⟩).2 ≠ ((chainFrom q ts).get ⟨j, hj2⟩).2 := by
  induction ts with
  | nil => intro p q hpq j hj hj2; simp [chainFrom] at hj
  | cons t ts ih =>
    intro p q hpq j hj hj2
    cases j with
    | zero =>
      show txHash p t ≠ txHash q t
      intro hEq
      unfold txHash at hEq
      injection hEq with h1 h2
      exact hpq h1
    | succ j =>
      have hne : txHash p t ≠ txHash q t := by
        intro hEq
        unfold txHash at hEq
        injection hEq with h1 h2
        exact hpq h1
      exact ih (some (txHash p t)) (some (txHash q t))
        (fun hEq => hne (Option.some.inj hEq)) j
        (Nat.lt_of_succ_lt_succ hj) (Nat.lt_of_succ_lt_succ hj2)

theorem chainFrom_tamper_head (reason : String)
    (betId : Option Nat) (createdAt : Nat) (l₁ l₂ : List (Nat × Int))
    (e f : Nat × Int) (h : e ≠ f) (p : Option HashVal) :
    txHash p ⟨reason, betId, createdAt, l₁ ++ e :: l₂⟩ ≠
      txHash p ⟨reason, betId, createdAt, l₁ ++ f :: l₂⟩ := by
  intro hEq
  unfold txHash txPayload at hEq
  injection hEq with h1 h2
  injection h2 with ha hb hc hd
  exact canonEntries_replace_ne l₁ l₂ e f h hd

theorem chainFrom_tamper_ge (reason : String) (betId : Option Nat)
    (createdAt : Nat) (l₁ l₂ : List (Nat × Int)) (e f : Nat × Int)
    (h : e ≠ f) (post : List ChainTx) :
    ∀ (pre : List ChainTx) (p : Option HashVal) (j : Nat), pre.length ≤ j →
      ∀ (hj : j < (chainFrom p
            (pre ++ (⟨reason, betId, createdAt, l₁ ++ e :: l₂⟩ : ChainTx) :: post)).length)
        (hj2 : j < (chainFrom p
            (pre ++ (⟨reason, betId, createdAt, l₁ ++ f :: l₂⟩ : ChainTx) :: post)).length),
        ((chainFrom p
            (pre ++ (⟨reason, betId, createdAt, l₁ ++ e :: l₂⟩ : ChainTx) :: post)).get
          ⟨j, hj⟩).2 ≠
        ((chainFrom p
            (pre ++ (⟨reason, betId, createdAt, l₁ ++ f :: l₂⟩ : ChainTx) :: post)).get
          ⟨j, hj2⟩).2 := by
  intro pre
  induction pre with
  | nil =>
    intro p j _ hj hj2
    cases j with
    | zero => exact chainFrom_tamper_head reason betId createdAt l₁ l₂ e f h p
    | succ j =>
      exact chainFrom_get_ne post
        (some (txHash p ⟨reason, betId, createdAt, l₁ ++ e :: l₂⟩))
        (some (txHash p ⟨reason, betId, createdAt, l₁ ++ f :: l₂⟩))
        (fun hEq =>
          chainFrom_tamper_head reason betId createdAt l₁ l₂ e f h p
            (Option.some.inj hEq))
        j (Nat.lt_of_succ_lt_succ hj) (Nat.lt_of_succ_lt_succ hj2)
  | cons t pre ih =>
    intro p j hle hj hj2
    cases j with
    | zero => exact absurd hle (by simp)
    | succ j =>
      exact ih (some (txHash p t)) j (Nat.le_of_succ_le_succ hle)
        (Nat.lt_of_succ_lt_succ hj) (Nat.lt_of_succ_lt_succ hj2)

/-- C6: for the committed transactions listed in `(created_at, id)` order,
the sealed hashes form a chain whose every row's `prev_hash` is the hash of
the immediately preceding row, each hash being the digest of `prev_hash`
chained with the payload digest over reason, bet id, timestamp and
canonicalized entries; and replacing any single entry of transaction `i` by
a different one changes the recomputed hash of transaction `i` and of every
later transaction, so the stored chain link breaks from position `i` on.
The digest is modelled as injective, abstracting SHA-256 collision
resistance. -/
theorem hash_chain_integrity :
    (∀ ts : List ChainTx, chainLinked (chainHashes ts))
    ∧ (∀ (pre post : List ChainTx) (reason : String) (betId : Option Nat)
        (createdAt : Nat) (l₁ l₂ : List (Nat × Int)) (e f : Nat × Int), e ≠ f →
        ∀ (j : Nat), pre.length ≤ j →
        ∀ (hj : j < (chainHashes
              (pre ++ (⟨reason, betId, createdAt, l₁ ++ e :: l₂⟩ : ChainTx) :: post)).length)
          (hj2 : j < (chainHashes
              (pre ++ (⟨reason, betId, createdAt, l₁ ++ f :: l₂⟩ : ChainTx) :: post)).length),
          ((chainHashes
              (pre ++ (⟨reason, betId, createdAt, l₁ ++ e :: l₂⟩ : ChainTx) :: post)).get
            ⟨j, hj⟩).2 ≠
          ((chainHashes
              (pre ++ (⟨reason, betId, createdAt, l₁ ++ f :: l₂⟩ : ChainTx) :: post)).get
            ⟨j, hj2⟩).2) :=
  ⟨fun ts => chainFrom_linked ts none,
    fun pre post reason betId createdAt l₁ l₂ e f h j hle hj hj2 =>
      chainFrom_tamper_ge reason betId createdAt l₁ l₂ e f h post pre none j hle hj hj2⟩

/-- Witness for `hash_chain_integrity`: changing the single entry
`(1, -5)` of a one-transaction ledger to `(1, -4)` changes the sealed
hash. -/
theorem hash_chain_integrity_witness :
    ((chainHashes [(⟨"BET", none, 0, [] ++ (1, -5) :: [(2, 5)]⟩ : ChainTx)]).get
        ⟨0, by decide⟩).2 ≠
      ((chainHashes [(⟨"BET", none, 0, [] ++ (1, -4) :: [(2, 5)]⟩ : ChainTx)]).get
        ⟨0, by decide⟩).2 :=
  hash_chain_integrity.2 [] [] "BET" none 0 [] [(2, 5)] (1, -5) (1, -4)
    (by decide) 0 (by decide) (by decide) (by decide)

/-! ### Handler theorems -/

/-- C10: a peer transfer whose recipient is the sender is rejected by the
self-send check that runs before the unit of work begins: the state is
unchanged (no transaction row, no ledger entries, both balances as before)
and the outcome is never a successful send; with a positive amount the
outcome is precisely the self-transfer rejection. -/
theorem self_transfer_rejected (st : St) (uid : Nat) (amount : Int) :
    (handleTransfer st uid uid amount).2 = st
    ∧ (handleTransfer st uid uid amount).1 ≠ TransferOutcome.sent
    ∧ (0 < amount →
        handleTransfer st uid uid amount = (TransferOutcome.selfTransfer, st)) := by
  unfold handleTransfer
  by_cases h : amount ≤ 0
  · rw [if_pos h]
    exact ⟨rfl, by simp, fun hpos => absurd h (by omega)⟩
  · rw [if_neg h, if_pos (beq_self_eq_true uid)]
    exact ⟨rfl, by simp, fun _ => rfl⟩

/-- Empty database state. -/
def stEmpty : St := ⟨[], [], [], [], []⟩

/-- Witness for `self_transfer_rejected`: user 5 sending 7 to user 5 is
rejected as a self transfer with no state change. -/
theorem self_transfer_rejected_witness :
    handleTransfer stEmpty 5 5 7 = (TransferOutcome.selfTransfer, stEmpty) :=
  (self_transfer_rejected stEmpty 5 7).2.2 (by decide)

/-- C7: `place_wager` admits a stake only when the option belongs to the
bet, the bet is open, the deadline is null or strictly in the future, and
no resolution vote exists for the bet; when the option/bet validation or
the `can_wager` condition fails, the handler returns the corresponding
error and the state is unchanged - no wager, transaction or ledger entry
is created.  In particular one cast resolution vote makes `can_wager`
false and freezes the market. -/
theorem wager_admission_conditions (st : St) (now : Int) (uid betId optionId : Nat)
    (amount : Int) (key : String) (ha : 0 < amount) (hk : key ≠ "") :
    (validBetOption st optionId betId = false →
      placeWager st now uid betId optionId amount key = (WagerOutcome.invalidBetOption, st))
    ∧ (validBetOption st optionId betId = true → canWager st now betId = false →
      placeWager st now uid betId optionId amount key = (WagerOutcome.conflict, st))
    ∧ ((placeWager st now uid betId optionId amount key).1 = WagerOutcome.placed →
      validBetOption st optionId betId = true ∧
      ∃ bet, getBet st betId = some bet ∧ bet.status = BetStatus.opened ∧
        (bet.deadline = none ∨ ∃ d, bet.deadline = some d ∧ now < d) ∧
        betVotes st betId = []) := by
  have hna : ¬ (amount ≤ 0) := by omega
  refine ⟨?_, ?_, ?_⟩
  · intro h
    simp [placeWager, hna, hk, h]
  · intro hv hcw
    simp [placeWager, hna, hk, hv, hcw]
  · intro hp
    cases hbv : validBetOption st optionId betId with
    | false => simp [placeWager, hna, hk, hbv] at hp
    | true =>
      cases hcw : canWager st now betId with
      | false => simp [placeWager, hna, hk, hbv, hcw] at hp
      | true =>
        refine ⟨rfl, ?_⟩
        unfold canWager at hcw
        rcases hgb : getBet st betId with _ | bet
        · rw [hgb] at hcw; cases hcw
        · rw [hgb] at hcw
          rw [Bool.and_eq_true, Bool.and_eq_true] at hcw
          obtain ⟨⟨hst, hdl⟩, hvt⟩ := hcw
          refine ⟨bet, rfl, ?_, ?_, ?_⟩
          · cases hbs : bet.status with
            | opened => rfl
            | closed => rw [hbs] at hst; cases hst
          · rcases hd : bet.deadline with _ | d
            · exact Or.inl rfl
            · rw [hd] at hdl
              exact Or.inr ⟨d, rfl, of_decide_eq_true hdl⟩
          · cases hbvv : betVotes st betId with
            | nil => rfl
            | cons v vs => rw [hbvv] at hvt; cases hvt

/-- State with one open bet (id 1, option 1) on which moderator 9 has
already cast a resolution vote: the market is frozen. -/
def stFrozen : St :=
  ⟨[(1, ⟨BetStatus.opened, none, none⟩)], [(1, 1)], [], [⟨1, 9, 1⟩], []⟩

/-- Witness for `wager_admission_conditions`: once a resolution vote
exists, a wager on the open bet is rejected as a conflict with no state
change. -/
theorem wager_admission_conditions_witness :
    placeWager stFrozen 0 5 1 1 40 "k" = (WagerOutcome.conflict, stFrozen) :=
  (wager_admission_conditions stFrozen 0 5 1 1 40 "k" (by decide) (by decide)).2.1
    (by decide) (by decide)

/-- C9: `processResolution` accepts a moderator's vote exactly when the
option belongs to the bet, the bet's status is open and the bet's deadline
is null or already passed (`deadline <= now`, the resolution path after the
staking period); a vote on an unknown bet/option pair or a bet that is not
open in this sense is rejected with the corresponding error and no state
change. -/
theorem cast_vote_preconditions (quorum : Nat) (now : Int) (st : St)
    (uid betId optionId : Nat) :
    (validBetOption st optionId betId = false →
      processResolution quorum now st uid betId optionId =
        (ResolveOutcome.invalidBetOption, st))
    ∧ (validBetOption st optionId betId = true → canVote st now betId = false →
      processResolution quorum now st uid betId optionId = (ResolveOutcome.betNotOpen, st))
    ∧ (((processResolution quorum now st uid betId optionId).1 = ResolveOutcome.voted ∨
        (processResolution quorum now st uid betId optionId).1 = ResolveOutcome.finalized) →
      validBetOption st optionId betId = true ∧
      ∃ bet, getBet st betId = some bet ∧ bet.status = BetStatus.opened ∧
        (bet.deadline = none ∨ ∃ d, bet.deadline = some d ∧ d ≤ now)) := by
  refine ⟨?_, ?_, ?_⟩
  · intro h
    simp [processResolution, h]
  · intro hv ho
    simp [processResolution, hv, ho]
  · intro hout
    cases hbv : validBetOption st optionId betId with
    | false =>
      rcases hout with hout | hout <;> simp [processResolution, hbv] at hout
    | true =>
      cases ho : canVote st now betId with
      | false =>
        rcases hout with hout | hout <;> simp [processResolution, hbv, ho] at hout
      | true =>
        refine ⟨rfl, ?_⟩
        unfold canVote at ho
        rcases hgb : getBet st betId with _ | bet
        · rw [hgb] at ho; cases ho
        · rw [hgb] at ho
          rw [Bool.and_eq_true] at ho
          obtain ⟨hst, hdl⟩ := ho
          refine ⟨bet, rfl, ?_, ?_⟩
          · cases hbs : bet.status with
            | opened => rfl
            | closed => rw [hbs] at hst; cases hst
          · rcases hd : bet.deadline with _ | d
            · exact Or.inl rfl
            · rw [hd] at hdl
              exact Or.inr ⟨d, rfl, of_decide_eq_true hdl⟩

/-- State with one already-closed bet (id 1, option 1, resolved to 1). -/
def stClosed : St :=
  ⟨[(1, ⟨BetStatus.closed, none, some 1⟩)], [(1, 1)], [], [], []⟩

/-- Witness for `cast_vote_preconditions`: a vote on a closed bet is
rejected with no state change. -/
theorem cast_vote_preconditions_witness :
    processResolution 2 0 stClosed 7 1 1 = (ResolveOutcome.betNotOpen, stClosed) :=
  (cast_vote_preconditions 2 0 stClosed 7 1 1).2.1 (by decide) (by decide)

/-- Net state produced by a successful `place_wager`: one BET transaction
moving `amount` from the user's wallet to the bet's escrow, and one wager
row keyed by `(user, idempotency_key)`. -/
def placedState (st : St) (uid betId optionId : Nat) (amount : Int) (key : String) : St :=
  { st with
    txs := st.txs ++ [⟨"BET", some betId,
      [(Acct.wallet uid, -amount), (Acct.escrow betId, amount)]⟩],
    wagers := st.wagers ++ [⟨uid, betId, optionId, amount, key⟩] }

/-- C4: when a `place_wager` call succeeds, exactly one wager row keyed by
`(user, idempotency_key)` and exactly one BET ledger transaction moving
`amount` from the user's wallet to the bet's escrow have been created; a
second submission with the same `(user, idempotency_key)` that reaches the
wager insert (its validation and balance check pass) collides on
`uq_wager_user_idemp`, is reported as already successfully processed - not
as an error - and commits nothing: its own ledger movement is rolled back
and the state is exactly the state after the first call. -/
theorem idempotent_wager_admission (st : St) (now : Int) (uid betId optionId : Nat)
    (amount : Int) (key : String)
    (h1 : (placeWager st now uid betId optionId amount key).1 = WagerOutcome.placed)
    (h2 : amount ≤ userBalance (placeWager st now uid betId optionId amount key).2 uid) :
    (((placeWager st now uid betId optionId amount key).2.wagers.filter
        (fun w => w.userId == uid && w.idempotencyKey == key)).length = 1)
    ∧ ((placeWager st now uid betId optionId amount key).2.txs =
        st.txs ++ [⟨"BET", some betId,
          [(Acct.wallet uid, -amount), (Acct.escrow betId, amount)]⟩])
    ∧ (placeWager (placeWager st now uid betId optionId amount key).2 now uid betId
        optionId amount key =
      (WagerOutcome.alreadySubmitted, (placeWager st now uid betId optionId amount key).2)) := by
  by_cases ha : amount ≤ 0
  · simp [placeWager, ha] at h1
  by_cases hkey : key = ""
  · simp [placeWager, ha, hkey] at h1
  cases hbv : validBetOption st optionId betId with
  | false => simp [placeWager, ha, hkey, hbv] at h1
  | true =>
    cases hcw : canWager st now betId with
    | false => simp [placeWager, ha, hkey, hbv, hcw] at h1
    | true =>
      by_cases hbal : userBalance st uid < amount
      · simp [placeWager, ha, hkey, hbv, hcw, hbal] at h1
      · cases hany : st.wagers.any
            (fun w => w.userId == uid && w.idempotencyKey == key) with
        | true => simp [placeWager, ha, hkey, hbv, hcw, hbal, hany] at h1
        | false =>
          have hres : placeWager st now uid betId optionId amount key =
              (WagerOutcome.placed, placedState st uid betId optionId amount key) := by
            simp [placeWager, placedState, ha, hkey, hbv, hcw, hbal, hany]
          rw [hres] at h2 ⊢
          have h2' : amount ≤ userBalance (placedState st uid betId optionId amount key) uid := h2
          refine ⟨?_, rfl, ?_⟩
          · show (((placedState st uid betId optionId amount key).wagers).filter
                (fun w => w.userId == uid && w.idempotencyKey == key)).length = 1
            have hw : (placedState st uid betId optionId amount key).wagers =
                st.wagers ++ [⟨uid, betId, optionId, amount, key⟩] := rfl
            rw [hw, List.filter_append]
            have hnil : st.wagers.filter
                (fun w => w.userId == uid && w.idempotencyKey == key) = [] := by
              rw [List.filter_eq_nil_iff]
              exact List.any_eq_false.mp hany
            rw [hnil]
            simp
          · have hbv2 : validBetOption (placedState st uid betId optionId amount key)
                optionId betId = true := hbv
            have hcw2 : canWager (placedState st uid betId optionId amount key)
                now betId = true := hcw
            have hany2 : (placedState st uid betId optionId amount key).wagers.any
                (fun w => w.userId == uid && w.idempotencyKey == key) = true := by
              have hw : (placedState st uid betId optionId amount key).wagers =
                  st.wagers ++ [⟨uid, betId, optionId, amount, key⟩] := rfl
              rw [hw, List.any_append]
              simp
            have hbal2 : ¬ (userBalance (placedState st uid betId optionId amount key)
                uid < amount) := by omega
            show placeWager (placedState st uid betId optionId amount key) now uid betId
                optionId amount key =
              (WagerOutcome.alreadySubmitted, placedState st uid betId optionId amount key)
            simp [placeWager, ha, hkey, hbv2, hcw2, hbal2, hany2]

/-- State with one open bet (id 1, option 1) and user 5 funded with 100 by
a house gift. -/
def stFunded : St :=
  ⟨[(1, ⟨BetStatus.opened, none, none⟩)], [(1, 1)], [], [],
    [⟨"GIFT", none, [(Acct.wallet houseUserId, -100), (Acct.wallet 5, 100)]⟩]⟩

/-- Witness for `idempotent_wager_admission`: user 5 wagers 40 with key
`"k"`; the retry with the same key is answered as already submitted and
changes nothing. -/
theorem idempotent_wager_admission_witness :
    placeWager (placeWager stFunded 0 5 1 1 40 "k").2 0 5 1 1 40 "k" =
      (WagerOutcome.alreadySubmitted, (placeWager stFunded 0 5 1 1 40 "k").2) :=
  (idempotent_wager_admission stFunded 0 5 1 1 40 "k" (by decide) (by decide)).2.2

/-! ### Consensus finalization -/

theorem dedup_length_one_iff {α : Type} [DecidableEq α] (l : List α) (hne : l ≠ []) :
    l.dedup.length = 1 ↔ ∀ a ∈ l, ∀ b ∈ l, a = b := by
  constructor
  · intro h a ha b hb
    rcases List.length_eq_one.mp h with ⟨c, hc⟩
    have ha' : a ∈ l.dedup := List.mem_dedup.mpr ha
    have hb' : b ∈ l.dedup := List.mem_dedup.mpr hb
    rw [hc] at ha' hb'
    simp at ha' hb'
    rw [ha', hb']
  · intro h
    rcases List.exists_mem_of_ne_nil l hne with ⟨a, ha⟩
    have hsub : ∀ x ∈ l.dedup, x = a := fun x hx => h x (List.mem_dedup.mp hx) a ha
    have hamem : a ∈ l.dedup := List.mem_dedup.mpr ha
    have hnd : l.dedup.Nodup := List.nodup_dedup l
    cases hd : l.dedup with
    | nil => rw [hd] at hamem; simp at hamem
    | cons x xs =>
      cases xs with
      | nil => rfl
      | cons y ys =>
        exfalso
        rw [hd] at hsub hnd
        have hx := hsub x (by simp)
        have hy := hsub y (by simp)
        rw [List.nodup_cons] at hnd
        exact hnd.1 (by rw [hx, hy]; simp)

theorem upsert_filter_ne_nil (votes : List VoteRow) (betId uid optionId : Nat) :
    (upsertVote votes betId uid optionId).filter (fun v => v.betId == betId) ≠ [] := by
  unfold upsertVote
  rw [List.filter_append]
  intro h
  rcases List.append_eq_nil.mp h with ⟨_, h2⟩
  simp [List.filter] at h2

theorem find?_closeBet (bets : List (Nat × Bet)) (betId winOpt : Nat) :
    (closeBet bets betId winOpt).find? (fun p => p.1 == betId) =
      (bets.find? (fun p => p.1 == betId)).map (fun p =>
        (p.1, { p.2 with status := BetStatus.closed, resolutionOption := some winOpt })) := by
  induction bets with
  | nil => rfl
  | cons p rest ih =>
    unfold closeBet at ih ⊢
    rw [List.map_cons]
    cases hq : (p.1 == betId) with
    | true =>
      rw [if_pos rfl]
      rw [List.find?_cons_of_pos _ (by simpa using hq),
        List.find?_cons_of_pos _ (by simpa using hq)]
      rfl
    | false =>
      rw [if_neg (by simp)]
      rw [List.find?_cons_of_neg _ (by simp [hq]),
        List.find?_cons_of_neg _ (by simp [hq])]
      exact ih

theorem getBet_applyBetPayout (st : St) (betId winOpt : Nat) :
    getBet (applyBetPayout st betId winOpt) betId =
      (getBet st betId).map (fun b =>
        { b with status := BetStatus.closed, resolutionOption := some winOpt }) := by
  have hb : (applyBetPayout st betId winOpt).bets = closeBet st.bets betId winOpt := rfl
  unfold getBet
  rw [hb, find?_closeBet]
  cases st.bets.find? (fun p => p.1 == betId) with
  | none => rfl
  | some p => rfl

theorem finalizeBetPayout_none_iff (st : St) (betId winOpt : Nat) :
    finalizeBetPayout st betId winOpt = none ↔
      (st.wagers.filter (fun w => w.betId == betId)).isEmpty = true := by
  unfold finalizeBetPayout
  cases hw : (st.wagers.filter (fun w => w.betId == betId)).isEmpty with
  | true => simp
  | false => simp

theorem finalizeBetPayout_some_eq (st st2 : St) (betId winOpt : Nat)
    (h : finalizeBetPayout st betId winOpt = some st2) :
    st2 = applyBetPayout st betId winOpt ∧
      (st.wagers.filter (fun w => w.betId == betId)).isEmpty = false := by
  unfold finalizeBetPayout at h
  cases hw : (st.wagers.filter (fun w => w.betId == betId)).isEmpty with
  | true =>
    simp only [hw] at h
    exact Option.noConfusion (show (none : Option St) = some st2 from h)
  | false =>
    simp only [hw] at h
    have h2 : some (applyBetPayout st betId winOpt) = some st2 := h
    injection h2 with h3
    exact ⟨h3.symm, rfl⟩

/-- State with one open bet (id 1, no deadline), option 3 of bet 1, an
existing vote by moderator 7 for option 3, and no wagers: the escrow
account was never created. -/
def stVoting : St :=
  ⟨[(1, ⟨BetStatus.opened, none, none⟩)], [(3, 1)], [], [⟨1, 7, 3⟩], []⟩

/-- C5 counterexample: on the zero-wager bet of `stVoting`, moderator 8's
vote for option 3 brings the live votes to two unanimous votes, meeting
quorum 2 - the claimed finalization condition holds - yet the bet does not
finalize: `finalizeBetPayout` fails at the lazily-created escrow account
(no wager ever created it) and the whole resolution, the vote included,
rolls back with a database error. -/
theorem consensus_finalization_counterexample :
    (2 ≤ ((upsertVote stVoting.votes 1 8 3).filter (fun v => v.betId == 1)).length
      ∧ ∀ v ∈ (upsertVote stVoting.votes 1 8 3).filter (fun v => v.betId == 1),
          ∀ w ∈ (upsertVote stVoting.votes 1 8 3).filter (fun v => v.betId == 1),
            v.optionId = w.optionId)
    ∧ validBetOption stVoting 3 1 = true
    ∧ canVote stVoting 0 1 = true
    ∧ processResolution 2 0 stVoting 8 1 3 = (ResolveOutcome.dbError, stVoting) := by
  refine ⟨⟨by decide, by decide⟩, by decide, by decide, by decide⟩

/-- C5 (amended): when a vote on an open bet is accepted,
`processResolution` finalizes the bet - closes it with a resolution option
and runs the payout - if and only if, after the vote is recorded, the live
votes of the bet reach the configured quorum, all name the same option
(unanimity among cast votes), and the bet has at least one wager (so its
lazily-created escrow account exists); when quorum and unanimity are met
on a wagerless bet the payout fails and the entire resolution, the vote
included, rolls back with a database error; otherwise the outcome is a
plain vote and the bet row is unchanged. -/
theorem consensus_finalization (quorum : Nat) (now : Int) (st : St)
    (uid betId optionId : Nat) (out : ResolveOutcome) (st' : St)
    (hv : validBetOption st optionId betId = true)
    (ho : canVote st now betId = true)
    (hr : processResolution quorum now st uid betId optionId = (out, st')) :
    (out = ResolveOutcome.finalized ↔
      ((quorum ≤ ((upsertVote st.votes betId uid optionId).filter
          (fun v => v.betId == betId)).length ∧
        ∀ v ∈ (upsertVote st.votes betId uid optionId).filter (fun v => v.betId == betId),
          ∀ w ∈ (upsertVote st.votes betId uid optionId).filter (fun v => v.betId == betId),
            v.optionId = w.optionId) ∧
        (st.wagers.filter (fun w => w.betId == betId)).isEmpty = false))
    ∧ (out = ResolveOutcome.finalized →
        (getBet st' betId).map Bet.status = some BetStatus.closed ∧
        ((getBet st' betId).bind Bet.resolutionOption).isSome = true)
    ∧ (out = ResolveOutcome.voted → getBet st' betId = getBet st betId)
    ∧ (out = ResolveOutcome.dbError →
        st' = st ∧ (st.wagers.filter (fun w => w.betId == betId)).isEmpty = true)
    ∧ (out = ResolveOutcome.voted ∨ out = ResolveOutcome.finalized ∨
        out = ResolveOutcome.dbError) := by
  have hbvs : (upsertVote st.votes betId uid optionId).filter
      (fun v => v.betId == betId) ≠ [] :=
    upsert_filter_ne_nil st.votes betId uid optionId
  have hmapne : ((upsertVote st.votes betId uid optionId).filter
      (fun v => v.betId == betId)).map (fun v => v.optionId) ≠ [] := by
    simpa using hbvs
  obtain ⟨vh, hvh⟩ : ∃ v, ((upsertVote st.votes betId uid optionId).filter
      (fun v => v.betId == betId)).head? = some v := by
    cases hc : (upsertVote st.votes betId uid optionId).filter
        (fun v => v.betId == betId) with
    | nil => exact absurd hc hbvs
    | cons x xs => exact ⟨x, rfl⟩
  have hwin : consensusWinningOption (upsertVote st.votes betId uid optionId) betId =
      some vh.optionId := by
    unfold consensusWinningOption
    rw [hvh]
    rfl
  unfold processResolution at hr
  rw [hv, ho] at hr
  simp only [consensusStatus] at hr
  rw [hwin] at hr
  cases hguard : (decide (quorum ≤ ((upsertVote st.votes betId uid optionId).filter
        (fun v => v.betId == betId)).length) &&
      ((((upsertVote st.votes betId uid optionId).filter
        (fun v => v.betId == betId)).map (fun v => v.optionId)).dedup.length == 1)) with
  | true =>
    simp only [hguard] at hr
    rw [Bool.and_eq_true] at hguard
    obtain ⟨hq, hded⟩ := hguard
    have hcond : quorum ≤ ((upsertVote st.votes betId uid optionId).filter
        (fun v => v.betId == betId)).length ∧
        ∀ v ∈ (upsertVote st.votes betId uid optionId).filter (fun v => v.betId == betId),
          ∀ w ∈ (upsertVote st.votes betId uid optionId).filter (fun v => v.betId == betId),
            v.optionId = w.optionId := by
      refine ⟨of_decide_eq_true hq, ?_⟩
      intro v hvmem w hwmem
      have hone : (((upsertVote st.votes betId uid optionId).filter
          (fun v => v.betId == betId)).map (fun v => v.optionId)).dedup.length = 1 := by
        simpa using hded
      have hall := (dedup_length_one_iff _ hmapne).mp hone
      exact hall v.optionId (List.mem_map_of_mem _ hvmem)
        w.optionId (List.mem_map_of_mem _ hwmem)
    cases hfin : finalizeBetPayout
        { st with votes := upsertVote st.votes betId uid optionId } betId vh.optionId with
    | some st2 =>
      rw [hfin] at hr
      have hr2 : (ResolveOutcome.finalized, st2) = (out, st') := hr
      injection hr2 with h1 h2
      subst h1
      subst h2
      obtain ⟨hst2, hwne⟩ := finalizeBetPayout_some_eq _ _ _ _ hfin
      have hwne2 : (st.wagers.filter (fun w => w.betId == betId)).isEmpty = false := hwne
      refine ⟨⟨fun _ => ⟨hcond, hwne2⟩, fun _ => rfl⟩, ?_, ?_, ?_,
        Or.inr (Or.inl rfl)⟩
      · intro _
        rw [hst2, getBet_applyBetPayout]
        have hsame : getBet { st with votes := upsertVote st.votes betId uid optionId }
            betId = getBet st betId := rfl
        rw [hsame]
        rcases hgb : getBet st betId with _ | bet
        · exfalso
          unfold canVote at ho
          rw [hgb] at ho
          cases ho
        · simp
      · intro h
        simp at h
      · intro h
        simp at h
    | none =>
      rw [hfin] at hr
      have hr2 : (ResolveOutcome.dbError, st) = (out, st') := hr
      injection hr2 with h1 h2
      subst h1
      subst h2
      have hwem : (st.wagers.filter (fun w => w.betId == betId)).isEmpty = true :=
        (finalizeBetPayout_none_iff
          { st with votes := upsertVote st.votes betId uid optionId }
          betId vh.optionId).mp hfin
      refine ⟨?_, ?_, ?_, fun _ => ⟨rfl, hwem⟩, Or.inr (Or.inr rfl)⟩
      · constructor
        · intro h
          simp at h
        · rintro ⟨_, hne⟩
          rw [hwem] at hne
          cases hne
      · intro h
        simp at h
      · intro h
        simp at h
  | false =>
    simp only [hguard] at hr
    have hr2 : (ResolveOutcome.voted,
        { st with votes := upsertVote st.votes betId uid optionId }) = (out, st') := hr
    injection hr2 with h1 h2
    subst h1
    subst h2
    refine ⟨?_, ?_, fun _ => rfl, ?_, Or.inl rfl⟩
    · constructor
      · intro h
        simp at h
      · rintro ⟨⟨hq, hall⟩, _⟩
        exfalso
        have hded : (((upsertVote st.votes betId uid optionId).filter
            (fun v => v.betId == betId)).map (fun v => v.optionId)).dedup.length = 1 := by
          rw [dedup_length_one_iff _ hmapne]
          intro a hamem b hbmem
          rcases List.mem_map.mp hamem with ⟨v, hvmem, hva⟩
          rcases List.mem_map.mp hbmem with ⟨w, hwmem, hwb⟩
          rw [← hva, ← hwb]
          exact hall v hvmem w hwmem
        have htrue : (decide (quorum ≤ ((upsertVote st.votes betId uid optionId).filter
              (fun v => v.betId == betId)).length) &&
            ((((upsertVote st.votes betId uid optionId).filter
              (fun v => v.betId == betId)).map (fun v => v.optionId)).dedup.length == 1)) =
            true := by
          rw [Bool.and_eq_true]
          exact ⟨decide_eq_true hq, by rw [hded]; rfl⟩
        rw [hguard] at htrue
        cases htrue
    · intro h
      simp at h
    · intro h
      simp at h

/-- State like `stVoting` but with one wager by user 5 of 40 on option 3,
so the escrow account of bet 1 exists. -/
def stVotingFunded : St :=
  ⟨[(1, ⟨BetStatus.opened, none, none⟩)], [(3, 1)], [⟨5, 1, 3, 40, "k"⟩],
    [⟨1, 7, 3⟩], []⟩

/-- Witness for `consensus_finalization`: with quorum 2, moderator 8
voting option 3 joins moderator 7's vote for option 3 on the funded bet;
two agreeing live votes reach the quorum and the bet finalizes. -/
theorem consensus_finalization_witness :
    (processResolution 2 0 stVotingFunded 8 1 3).1 = ResolveOutcome.finalized :=
  (consensus_finalization 2 0 stVotingFunded 8 1 3
      (processResolution 2 0 stVotingFunded 8 1 3).1
      (processResolution 2 0 stVotingFunded 8 1 3).2
      (by decide) (by decide) rfl).1.mpr ⟨⟨by decide, by decide⟩, by decide⟩
